import Mathlib

/-!
Verification of the light-heap intrusive binary heap (`src/heap.h` plus the
`heap.c` core it declares) against its natural-language specification.

The development has two layers.

`RankModel` is a functional model of the complete binary tree: the tree is
represented by its authoritative node count together with a valuation of
level-order ranks (rank 1 is the root, rank `r` has children `2*r` and
`2*r+1`, parent `r/2`), exactly the shape discipline the spec states for the
pointer structure.  The sift-up (`heap_fixup`), sift-down, erase, remove,
find and level-order traversal operations declared in `heap.h` but
implemented in the (absent) `heap.c` are modelled from the spec here; the
inline wrappers `heap_insert` and `heap_delete` follow the header code.
Loops are written with an explicit structural fuel argument (instantiated
with a bound that the loop never exhausts) so that every definition reduces
inside the kernel.

`PtrModel` is a pointer-level model of the inline functions defined directly
in `heap.h` (`heap_link`, `heap_insert_node`, `heap_delete`, the poison
constants, `HEAP_EMPTY_NODE` / `HEAP_CLEAR_NODE` and the optional debug
hooks), with memory as a map from addresses to node records and the missing
`heap_remove` / `heap_erase` callees kept as arbitrary parameters.
-/

namespace RankModel

/-- A complete binary tree in rank form: `count` live nodes, `val r` the
payload occupying level-order rank `r` (meaningful for `1 ≤ r ≤ count`).
`count` is the authoritative node count, as in `struct heap_root`. -/
structure MHeap (α : Type) where
  count : Nat
  val : Nat → α

variable {α : Type}

/-- Point update of a rank valuation. -/
def upd (f : Nat → α) (i : Nat) (x : α) : Nat → α :=
  fun k => if k = i then x else f k

/-- Exchange the payloads at ranks `i` and `j` (the pointer-level swap of
`heap.c` exchanges the two nodes' slots; in rank form the ranks swap
values). -/
def swap (h : MHeap α) (i j : Nat) : MHeap α :=
  { h with val := fun k => if k = i then h.val j else if k = j then h.val i else h.val k }

/-- The sift-up loop with explicit fuel; the cursor rank at least halves each
iteration, so fuel `r` never runs out. -/
def fixupGo (cmp : α → α → Int) : Nat → MHeap α → Nat → MHeap α
  | 0, h, _ => h
  | fuel + 1, h, r =>
    if 2 ≤ r then
      if cmp (h.val r) (h.val (r / 2)) < 0 then
        fixupGo cmp fuel (swap h r (r / 2)) (r / 2)
      else h
    else h

/-- Modelled from the spec: `heap_fixup` (sift-up), declared in `heap.h` but
implemented in the missing `heap.c`.  Spec §4.2: repeatedly compare the node
to its parent; while the node is strictly less under the comparator, swap it
upward, until it reaches the root or settles beneath a non-greater parent. -/
def heap_fixup (cmp : α → α → Int) (h : MHeap α) (r : Nat) : MHeap α :=
  fixupGo cmp r h r

/-- Modelled from the spec: the child chosen by sift-down (spec §4.2: "the
smaller of its two existing children"; with a single child that child; ties
resolve to the left child, an intentionally unspecified choice). -/
def minChild (cmp : α → α → Int) (h : MHeap α) (r : Nat) : Nat :=
  if 2 * r + 1 ≤ h.count ∧ cmp (h.val (2 * r + 1)) (h.val (2 * r)) < 0 then 2 * r + 1
  else 2 * r

/-- The sift-down loop with explicit fuel; the cursor rank strictly increases
toward `count` each iteration, so fuel `count` never runs out. -/
def siftDownGo (cmp : α → α → Int) : Nat → MHeap α → Nat → MHeap α
  | 0, h, _ => h
  | fuel + 1, h, r =>
    if 1 ≤ r ∧ 2 * r ≤ h.count then
      if cmp (h.val (minChild cmp h r)) (h.val r) < 0 then
        siftDownGo cmp fuel (swap h r (minChild cmp h r)) (minChild cmp h r)
      else h
    else h

/-- Modelled from the spec: the sift-down loop of `heap_erase` (spec §4.2):
repeatedly compare against the smaller existing child; if that child is
strictly less, swap down into its slot; stop when no child is smaller or no
children remain. -/
def siftDown (cmp : α → α → Int) (h : MHeap α) (r : Nat) : MHeap α :=
  siftDownGo cmp h.count h r

/-- Modelled from the spec: `heap_erase`, declared in `heap.h` but
implemented in the missing `heap.c`.  Spec §4.3: the promoted node "may need
to rise toward the root or sink toward the leaves depending on how its value
compares to its new neighbors — both directions must be checked"; the
deletion path invokes Fixup when the node is strictly smaller than its new
parent and the sift-down loop otherwise. -/
def heap_erase (cmp : α → α → Int) (h : MHeap α) (r : Nat) : MHeap α :=
  if 2 ≤ r ∧ cmp (h.val r) (h.val (r / 2)) < 0 then heap_fixup cmp h r
  else siftDown cmp h r

/-- Modelled from the spec: `heap_remove`, declared in `heap.h` but
implemented in the missing `heap.c`.  Spec §4.3: locate the last-in-level
order node (rank = count); if the removed node is that last node, simply
unlink it (no rebalancing, second component `none`); otherwise move the last
node into the removed node's slot, decrement the count, and return the
promoted slot as needing rebalancing. -/
def heap_remove (h : MHeap α) (r : Nat) : MHeap α × Option Nat :=
  if r = h.count then ({ count := h.count - 1, val := h.val }, none)
  else ({ count := h.count - 1, val := upd h.val r (h.val h.count) }, some r)

/-- The caller-facing deletion of `heap.h` (`heap_delete`, lines 220-235,
without the debug hook): remove the node, and if `heap_remove` returned a
node to rebalance, run `heap_erase` on it.  The rank argument is the rank of
the node to delete; ranks outside `1..count` are caller contract violations
(undefined behavior in C) and are modelled as a no-op. -/
def heap_delete (cmp : α → α → Int) (h : MHeap α) (r : Nat) : MHeap α :=
  if 1 ≤ r ∧ r ≤ h.count then
    match heap_remove h r with
    | (h', some reb) => heap_erase cmp h' reb
    | (h', none) => h'
  else h

/-- `heap_insert` of `heap.h` (lines 207-213): the navigator yields the slot
of rank `count + 1`; `heap_insert_node` links the node there as a leaf and
runs `heap_fixup` on it. -/
def heap_insert (cmp : α → α → Int) (h : MHeap α) (x : α) : MHeap α :=
  heap_fixup cmp { count := h.count + 1, val := upd h.val (h.count + 1) x } (h.count + 1)

/-- Modelled from the spec: `heap_find`, declared in `heap.h` but implemented
in the missing `heap.c`.  Spec §4.5: resolve a node by level-order rank;
none if the rank is 0, exceeds the count, or the root is empty. -/
def heap_find (h : MHeap α) (r : Nat) : Option α :=
  if 1 ≤ r ∧ r ≤ h.count then some (h.val r) else none

/-- Modelled from the spec: `heap_level_first`, declared in `heap.h` but
implemented in the missing `heap.c`.  Spec §4.4: returns the root (rank 1)
or none if empty, initializing the cursor to 1. -/
def heap_level_first (h : MHeap α) : Option α × Nat :=
  (if h.count = 0 then none else some (h.val 1), 1)

/-- Modelled from the spec: `heap_level_next`, declared in `heap.h` but
implemented in the missing `heap.c`.  Spec §4.4: increments the cursor and
re-resolves the new rank via the shape navigator; returns none once the
cursor exceeds the live count. -/
def heap_level_next (h : MHeap α) (i : Nat) : Option α × Nat :=
  (if i + 1 ≤ h.count then some (h.val (i + 1)) else none, i + 1)

/-- The visit loop with explicit fuel; the cursor increases toward `count`,
so fuel `count - i` never runs out. -/
def levelSeqGo (h : MHeap α) : Nat → Nat → List α
  | 0, _ => []
  | fuel + 1, i =>
    if i + 1 ≤ h.count then h.val (i + 1) :: levelSeqGo h fuel (i + 1) else []

/-- The sequence of nodes produced by iterating `heap_level_next` starting
from cursor value `i` until it yields none (the loop body of
`heap_for_each_continue`). -/
def levelSeq (h : MHeap α) (i : Nat) : List α :=
  levelSeqGo h (h.count - i) i

/-- A full level-order traversal: `heap_level_first`, then `heap_level_next`
until none (the loop of `heap_for_each`). -/
def levelTraversal (h : MHeap α) : List α :=
  match heap_level_first h with
  | (some x, i) => x :: levelSeq h i
  | (none, _) => []

/-- The root pointer of the modelled `struct heap_root`: absent exactly when
the tree is empty, otherwise the node of rank 1. -/
def rootNode (h : MHeap α) : Option α :=
  if h.count = 0 then none else some (h.val 1)

/-- The order invariant of the spec: for every linked node (rank `i` with
`2 ≤ i ≤ count`) and its parent (rank `i / 2`), `cmp parent node ≤ 0`. -/
def IsHeap (cmp : α → α → Int) (h : MHeap α) : Prop :=
  ∀ i, 2 ≤ i → i ≤ h.count → cmp (h.val (i / 2)) (h.val i) ≤ 0

/-- The spec's comparator contract (§6): a consistent ordering.  The sign of
`cmp a b` is opposite to the sign of `cmp b a`, and domination (`≤ 0`) is
transitive. -/
def CmpConsistent (cmp : α → α → Int) : Prop :=
  (∀ a b, 0 ≤ cmp a b ↔ cmp b a ≤ 0) ∧
  (∀ a b c, cmp a b ≤ 0 → cmp b c ≤ 0 → cmp a c ≤ 0)

/-- Heap order everywhere except that the node at rank `r` may be smaller
than its parent; in exchange, `r`'s parent dominates `r`'s children. -/
def AlmostUp (cmp : α → α → Int) (h : MHeap α) (r : Nat) : Prop :=
  (∀ i, 2 ≤ i → i ≤ h.count → i ≠ r → cmp (h.val (i / 2)) (h.val i) ≤ 0) ∧
  (∀ i, 2 ≤ i → i ≤ h.count → i / 2 = r → 2 ≤ r → cmp (h.val (r / 2)) (h.val i) ≤ 0)

/-- Heap order everywhere except that the node at rank `r` may be larger than
its children; in exchange, `r`'s parent dominates `r`'s children. -/
def AlmostDown (cmp : α → α → Int) (h : MHeap α) (r : Nat) : Prop :=
  (∀ i, 2 ≤ i → i ≤ h.count → i / 2 ≠ r → cmp (h.val (i / 2)) (h.val i) ≤ 0) ∧
  (∀ i, 2 ≤ i → i ≤ h.count → i / 2 = r → 2 ≤ r → cmp (h.val (r / 2)) (h.val i) ≤ 0)
/-- The promoted heap of spec §4.3: the last-in-level-order node's payload
moved into the removed slot `r`, count decremented (the first component of
`heap_remove` in the non-last case). -/
def promoteHeap (h : MHeap α) (r : Nat) : MHeap α :=
  { count := h.count - 1, val := upd h.val r (h.val h.count) }

/-- A single mutating operation on a heap root. -/
inductive HeapOp (α : Type) where
  | ins : α → HeapOp α
  | del : Nat → HeapOp α

/-- Apply one operation (`heap_insert` or `heap_delete`). -/
def applyOp (cmp : α → α → Int) (h : MHeap α) : HeapOp α → MHeap α
  | .ins x => heap_insert cmp h x
  | .del r => heap_delete cmp h r

/-- Run a sequence of inserts and deletes from a given root. -/
def runOps (cmp : α → α → Int) (h : MHeap α) (ops : List (HeapOp α)) : MHeap α :=
  ops.foldl (applyOp cmp) h

/-- The empty root (`HEAP_INIT`): no node, count 0.  The valuation below the
default payload `d` is irrelevant since no rank is live. -/
def emptyHeap (d : α) : MHeap α :=
  { count := 0, val := fun _ => d }

/-- Insert each payload of `xs` in order with `heap_insert`. -/
def runInserts (cmp : α → α → Int) (h : MHeap α) (xs : List α) : MHeap α :=
  xs.foldl (heap_insert cmp) h

/-- Delete the node of each listed rank in order with `heap_delete`. -/
def runDeletes (cmp : α → α → Int) (h : MHeap α) (rs : List Nat) : MHeap α :=
  rs.foldl (heap_delete cmp) h

/-- Each rank in the deletion sequence addresses a live node of the tree at
the moment it is deleted (the caller contract of `heap_delete`). -/
def validDeletes (cmp : α → α → Int) (h : MHeap α) : List Nat → Bool
  | [] => true
  | r :: rs =>
    (decide (1 ≤ r) && decide (r ≤ h.count)) && validDeletes cmp (heap_delete cmp h r) rs

/-- A pointer-shaped binary tree, as built from `parent`/`left`/`right`
links: either no node, or a node with payload and two subtrees. -/
inductive HTree (α : Type) where
  | nil : HTree α
  | node : α → HTree α → HTree α → HTree α
deriving DecidableEq

/-- The bit-trail accumulator of the navigator, with structural fuel (the
rank at least halves per step, so fuel `r` never runs out). -/
def navBitsGo : Nat → Nat → List Bool → List Bool
  | 0, _, acc => acc
  | fuel + 1, r, acc =>
    if 2 ≤ r then navBitsGo fuel (r / 2) (decide (r % 2 = 1) :: acc) else acc

/-- Modelled from the spec: the bit path of `heap_parent` (spec §4.1), for
`heap_parent` is declared in `heap.h` but implemented in the missing
`heap.c`.  Treat the rank in binary, drop the highest set bit (it stands for
the root), and read the remaining bits most-significant-first; `false`
descends left, `true` descends right.  Built by walking from the rank to the
root, accumulating a bit per edge, as the spec's companion operation does. -/
def navBits (r : Nat) : List Bool :=
  navBitsGo r r []

/-- Follow a bit path down a pointer tree: `false` takes the left child,
`true` the right; `none` when the path walks off a missing node. -/
def walk {α : Type} : HTree α → List Bool → Option (HTree α)
  | t, [] => some t
  | t, b :: bs =>
    match t with
    | .nil => none
    | .node _ l r => walk (if b then r else l) bs

/-- The pointer tree described by a rank heap: rank `r` holds a node exactly
when `1 ≤ r ≤ count`, with subtrees at ranks `2*r` and `2*r+1` (the complete
tree shape invariant).  Structural fuel bounds the depth. -/
def buildTreeGo (h : MHeap α) : Nat → Nat → HTree α
  | 0, _ => .nil
  | fuel + 1, r =>
    if 1 ≤ r ∧ r ≤ h.count then
      .node (h.val r) (buildTreeGo h fuel (2 * r)) (buildTreeGo h fuel (2 * r + 1))
    else .nil

/-- The pointer subtree rooted at rank `r`. -/
def buildTree (h : MHeap α) (r : Nat) : HTree α :=
  buildTreeGo h (h.count + 1 - r) r

/-- Modelled from the spec: `heap_parent`, declared in `heap.h` but
implemented in the missing `heap.c`.  Spec §4.1: all bits but the last lead
from the root to the direct parent; the last bit names the specific child
slot (`false` = left, `true` = right) that the rank resolves to. -/
def heap_parent (h : MHeap α) (r : Nat) : Option (HTree α) × Option Bool :=
  (walk (buildTree h 1) (navBits r).dropLast, (navBits r).getLast?)

/-- A small concrete comparator used to witness the comparator contract:
three-valued comparison on `Fin 3`. -/
def cmpF (a b : Fin 3) : Int :=
  if a.val < b.val then -1 else if b.val < a.val then 1 else 0

/-- A small concrete heap on natural-number payloads used by witnesses:
three live nodes, rank value equal to rank. -/
def wHeap : MHeap Nat :=
  { count := 3, val := fun k => k }

/-- A small concrete heap over `Fin 3` used by witnesses: values 0, 1, 1 at
ranks 1, 2, 3 (a valid min-heap under `cmpF`). -/
def wHeapF : MHeap (Fin 3) :=
  { count := 3, val := fun k => if k = 1 then 0 else 1 }

end RankModel

namespace PtrModel

/-- A pointer value: the C null pointer or an address. -/
inductive Ptr where
  | null : Ptr
  | addr : Nat → Ptr
deriving DecidableEq

/-- The three link fields of `struct heap_node` (`heap.h` lines 13-17). -/
structure HNode where
  parent : Ptr
  left : Ptr
  right : Ptr
deriving DecidableEq

/-- Memory: which node record, if any, lives at each address. -/
abbrev Mem := Nat → Option HNode

/-- `struct heap_root` (`heap.h` lines 19-22): top node pointer and live
count. -/
structure HRoot where
  node : Ptr
  count : Nat
deriving DecidableEq

/-- The mutable state a heap operation acts on: memory plus the root. -/
structure HState where
  mem : Mem
  root : HRoot

/-- `POISON_OFFSET` (`heap.h` line 74, default configuration). -/
def POISON_OFFSET : Nat := 0

/-- `POISON_HPNODE1` (`heap.h` line 77). -/
def POISON_HPNODE1 : Ptr := .addr (POISON_OFFSET + 0x10)

/-- `POISON_HPNODE2` (`heap.h` line 78). -/
def POISON_HPNODE2 : Ptr := .addr (POISON_OFFSET + 0x20)

/-- `POISON_HPNODE3` (`heap.h` line 79). -/
def POISON_HPNODE3 : Ptr := .addr (POISON_OFFSET + 0x30)

/-- The `link` argument of `heap_link`: a pointer to a child-pointer slot,
either `&root->node` or `&parent->left` / `&parent->right`. -/
inductive LinkSlot where
  | rootSlot : LinkSlot
  | leftOf : Nat → LinkSlot
  | rightOf : Nat → LinkSlot
deriving DecidableEq

/-- Store a pointer through a slot (`*link = node`). -/
def writeSlot (s : HState) (slot : LinkSlot) (p : Ptr) : HState :=
  match slot with
  | .rootSlot => { s with root := { s.root with node := p } }
  | .leftOf a =>
    { s with mem := fun k => if k = a then (s.mem k).map (fun nd => { nd with left := p }) else s.mem k }
  | .rightOf a =>
    { s with mem := fun k => if k = a then (s.mem k).map (fun nd => { nd with right := p }) else s.mem k }

/-- Read the pointer a slot currently holds (`*link`). -/
def readSlot (s : HState) (slot : LinkSlot) : Option Ptr :=
  match slot with
  | .rootSlot => some s.root.node
  | .leftOf a => (s.mem a).map HNode.left
  | .rightOf a => (s.mem a).map HNode.right

/-- `heap_link` (`heap.h` lines 172-185, hook-free configuration): store the
node through the slot, set the node's parent to `parent` and both its
children to null, and increment `root->count`. -/
def heap_link (s : HState) (parent : Ptr) (slot : LinkSlot) (a : Nat) : HState :=
  let s1 := writeSlot s slot (.addr a)
  let s2 : HState :=
    { s1 with mem := fun k => if k = a then some { parent := parent, left := .null, right := .null } else s1.mem k }
  { s2 with root := { s2.root with count := s2.root.count + 1 } }

/-- `heap_insert_node` (`heap.h` lines 194-199): `heap_link`, then
`heap_fixup` on the new node.  The fixup body lives in the missing `heap.c`,
so it is an arbitrary parameter here. -/
def heap_insert_node (fixup : HState → Nat → HState) (s : HState) (parent : Ptr)
    (slot : LinkSlot) (a : Nat) : HState :=
  fixup (heap_link s parent slot a) a

/-- `heap_delete` (`heap.h` lines 220-235, hook-free configuration):
`heap_remove` the node, `heap_erase` the returned rebalance node if any, and
poison the deleted node's three link fields.  `heap_remove` and `heap_erase`
live in the missing `heap.c`, so they are arbitrary parameters here. -/
def heap_delete (remove : HState → Nat → HState × Option Nat) (erase : HState → Nat → HState)
    (s : HState) (a : Nat) : HState :=
  let p := remove s a
  let s2 := match p.2 with
    | some reb => erase p.1 reb
    | none => p.1
  { s2 with mem := fun k =>
      if k = a then some { parent := POISON_HPNODE3, left := POISON_HPNODE1, right := POISON_HPNODE2 }
      else s2.mem k }

/-- `heap_link` with `DEBUG_HEAP` defined (`heap.h` lines 175-178): if the
registered link-check predicate rejects, return before any mutation. -/
def heap_link_debug (chk : Ptr → LinkSlot → Nat → Bool) (s : HState) (parent : Ptr)
    (slot : LinkSlot) (a : Nat) : HState :=
  if chk parent slot a then heap_link s parent slot a else s

/-- `heap_delete` with `DEBUG_HEAP` defined (`heap.h` lines 224-227): if the
registered delete-check predicate rejects, return before any mutation. -/
def heap_delete_debug (chk : Nat → Bool) (remove : HState → Nat → HState × Option Nat)
    (erase : HState → Nat → HState) (s : HState) (a : Nat) : HState :=
  if chk a then heap_delete remove erase s a else s

/-- `HEAP_EMPTY_NODE` (`heap.h` lines 39-40): the node's parent field points
back at the node itself. -/
def HEAP_EMPTY_NODE (s : HState) (a : Nat) : Bool :=
  match s.mem a with
  | some nd => decide (nd.parent = Ptr.addr a)
  | none => false

/-- `HEAP_CLEAR_NODE` (`heap.h` lines 42-43): set the node's parent field to
its own address. -/
def HEAP_CLEAR_NODE (s : HState) (a : Nat) : HState :=
  { s with mem := fun k => if k = a then (s.mem k).map (fun nd => { nd with parent := Ptr.addr a }) else s.mem k }

/-- A concrete one-node state used by witnesses. -/
def wState : HState :=
  { mem := fun k => if k = 5 then some { parent := .null, left := .null, right := .null } else none,
    root := { node := .addr 5, count := 1 } }

end PtrModel

namespace RankModel

theorem swap_count (h : MHeap α) (i j : Nat) : (swap h i j).count = h.count := rfl

theorem swap_val (h : MHeap α) (i j k : Nat) :
    (swap h i j).val k = if k = i then h.val j else if k = j then h.val i else h.val k := rfl

theorem swap_val_left (h : MHeap α) (i j : Nat) : (swap h i j).val i = h.val j := by
  rw [swap_val]; simp

theorem swap_val_right (h : MHeap α) (i j : Nat) (hne : j ≠ i) : (swap h i j).val j = h.val i := by
  rw [swap_val]; simp [hne]

theorem swap_val_other (h : MHeap α) (i j k : Nat) (h1 : k ≠ i) (h2 : k ≠ j) :
    (swap h i j).val k = h.val k := by
  rw [swap_val]; simp [h1, h2]

theorem fixupGo_count (cmp : α → α → Int) :
    ∀ (fuel : Nat) (h : MHeap α) (r : Nat), (fixupGo cmp fuel h r).count = h.count := by
  intro fuel
  induction fuel with
  | zero => intro h r; rfl
  | succ fuel ih =>
    intro h r
    simp only [fixupGo]
    split
    · split
      · rw [ih]; rfl
      · rfl
    · rfl

theorem fixupGo_isHeap {cmp : α → α → Int} (hcc : CmpConsistent cmp) :
    ∀ (fuel : Nat) (h : MHeap α) (r : Nat), r ≤ fuel → 1 ≤ r → r ≤ h.count →
      AlmostUp cmp h r → IsHeap cmp (fixupGo cmp fuel h r) := by
  obtain ⟨hflip, htrans⟩ := hcc
  intro fuel
  induction fuel with
  | zero => intro h r hle h1 _ _; omega
  | succ fuel ih =>
    intro h r hle h1 hrc hau
    obtain ⟨ha1, ha2⟩ := hau
    simp only [fixupGo]
    split
    case isTrue h2 =>
      split
      case isTrue hlt =>
        -- swap the node above its parent p = r / 2 and continue at p
        have hpr : r / 2 < r := by omega
        have hp1 : 1 ≤ r / 2 := by omega
        have e1 : (swap h r (r / 2)).val r = h.val (r / 2) := swap_val_left ..
        have e2 : (swap h r (r / 2)).val (r / 2) = h.val r := swap_val_right _ _ _ (by omega)
        have e3 : ∀ k, k ≠ r → k ≠ r / 2 → (swap h r (r / 2)).val k = h.val k :=
          fun k hk1 hk2 => swap_val_other _ _ _ _ hk1 hk2
        apply ih (swap h r (r / 2)) (r / 2) (by omega) hp1 (by rw [swap_count]; omega)
        constructor
        · intro i hi2 hic hine
          rw [swap_count] at hic
          by_cases hir : i = r
          · subst hir
            rw [e1, e2]
            exact le_of_lt hlt
          · by_cases hds : i / 2 = r / 2
            · -- sibling of the moving node
              rw [hds, e2, e3 i hir hine]
              have h5 := ha1 i hi2 hic hir
              rw [hds] at h5
              exact htrans _ _ _ (le_of_lt hlt) h5
            · by_cases hdr : i / 2 = r
              · -- child of the moving node
                rw [hdr, e1, e3 i hir (by omega)]
                have h5 := ha2 i hi2 hic hdr h2
                exact h5
              · rw [e3 i hir hine, e3 (i / 2) hdr hds]
                exact ha1 i hi2 hic hir
        · intro i hi2 hic hids hp2
          rw [swap_count] at hic
          have hq : r / 2 / 2 ≠ r := by omega
          have hq2 : r / 2 / 2 ≠ r / 2 := by omega
          rw [e3 (r / 2 / 2) hq hq2]
          have hpc : r / 2 ≤ h.count := by omega
          have hpar := ha1 (r / 2) hp2 hpc (by omega)
          by_cases hir : i = r
          · subst hir; rw [e1]; exact hpar
          · have hip : i ≠ r / 2 := by omega
            rw [e3 i hir hip]
            have h5 := ha1 i hi2 hic hir
            rw [hids] at h5
            exact htrans _ _ _ hpar h5
      case isFalse hge =>
        intro i hi2 hic
        by_cases hir : i = r
        · subst hir
          exact (hflip (h.val i) (h.val (i / 2))).mp (by omega)
        · exact ha1 i hi2 hic hir
    case isFalse h2 =>
      intro i hi2 hic
      exact ha1 i hi2 hic (by omega)

theorem heap_fixup_count (cmp : α → α → Int) (h : MHeap α) (r : Nat) :
    (heap_fixup cmp h r).count = h.count :=
  fixupGo_count ..

theorem heap_fixup_isHeap {cmp : α → α → Int} (hcc : CmpConsistent cmp) (h : MHeap α) (r : Nat)
    (h1 : 1 ≤ r) (hrc : r ≤ h.count) (hau : AlmostUp cmp h r) :
    IsHeap cmp (heap_fixup cmp h r) :=
  fixupGo_isHeap hcc r h r (le_refl r) h1 hrc hau

theorem minChild_bounds (cmp : α → α → Int) (h : MHeap α) (r : Nat) (hch : 2 * r ≤ h.count) :
    2 * r ≤ minChild cmp h r ∧ minChild cmp h r ≤ 2 * r + 1 ∧ minChild cmp h r ≤ h.count := by
  unfold minChild
  split
  case isTrue hcond => omega
  case isFalse hcond => omega

theorem minChild_min {cmp : α → α → Int} (hcc : CmpConsistent cmp) (h : MHeap α) (r : Nat)
    (_hch : 2 * r ≤ h.count) :
    ∀ s, s ≤ h.count → s / 2 = r → s ≠ minChild cmp h r →
      cmp (h.val (minChild cmp h r)) (h.val s) ≤ 0 := by
  obtain ⟨hflip, _⟩ := hcc
  intro s hsc hs2 hsne
  have hs : s = 2 * r ∨ s = 2 * r + 1 := by omega
  by_cases hcond : 2 * r + 1 ≤ h.count ∧ cmp (h.val (2 * r + 1)) (h.val (2 * r)) < 0
  · unfold minChild at hsne ⊢
    rw [if_pos hcond] at hsne ⊢
    have hseq : s = 2 * r := by omega
    rw [hseq]
    exact le_of_lt hcond.2
  · unfold minChild at hsne ⊢
    rw [if_neg hcond] at hsne ⊢
    have hseq : s = 2 * r + 1 := by omega
    have hsc' : 2 * r + 1 ≤ h.count := by omega
    have hiff := hflip (h.val (2 * r + 1)) (h.val (2 * r))
    have hnot : ¬ cmp (h.val (2 * r + 1)) (h.val (2 * r)) < 0 := fun hx => hcond ⟨hsc', hx⟩
    rw [hseq]
    exact hiff.mp (by omega)

theorem siftDownGo_count (cmp : α → α → Int) :
    ∀ (fuel : Nat) (h : MHeap α) (r : Nat), (siftDownGo cmp fuel h r).count = h.count := by
  intro fuel
  induction fuel with
  | zero => intro h r; rfl
  | succ fuel ih =>
    intro h r
    simp only [siftDownGo]
    split
    · split
      · rw [ih]; rfl
      · rfl
    · rfl

theorem siftDownGo_isHeap {cmp : α → α → Int} (hcc : CmpConsistent cmp) :
    ∀ (fuel : Nat) (h : MHeap α) (r : Nat), h.count ≤ fuel + r → 1 ≤ r →
      AlmostDown cmp h r → IsHeap cmp (siftDownGo cmp fuel h r) := by
  have hflip := hcc.1
  have htrans := hcc.2
  intro fuel
  induction fuel with
  | zero =>
    intro h r hle h1 had
    simp only [siftDownGo]
    intro i hi2 hic
    by_cases hdr : i / 2 = r
    · omega
    · exact had.1 i hi2 hic hdr
  | succ fuel ih =>
    intro h r hle h1 had
    obtain ⟨ha1, ha2⟩ := had
    simp only [siftDownGo]
    split
    case isTrue hg =>
      obtain ⟨hg1, hg2⟩ := hg
      obtain ⟨hb1, hb2, hb3⟩ := minChild_bounds cmp h r hg2
      have hmm := minChild_min hcc h r hg2
      split
      case isTrue hlt =>
        -- swap the node below its smaller child c and continue at c
        have hrc : r < minChild cmp h r := by omega
        have e1 : (swap h r (minChild cmp h r)).val r = h.val (minChild cmp h r) :=
          swap_val_left ..
        have e2 : (swap h r (minChild cmp h r)).val (minChild cmp h r) = h.val r :=
          swap_val_right _ _ _ (by omega)
        have e3 : ∀ k, k ≠ r → k ≠ minChild cmp h r →
            (swap h r (minChild cmp h r)).val k = h.val k :=
          fun k hk1 hk2 => swap_val_other _ _ _ _ hk1 hk2
        apply ih (swap h r (minChild cmp h r)) (minChild cmp h r)
          (by rw [swap_count]; omega) (by omega)
        constructor
        · intro i hi2 hic hine
          rw [swap_count] at hic
          by_cases hicx : i = minChild cmp h r
          · have hd : i / 2 = r := by omega
            rw [hd, hicx, e1, e2]
            exact le_of_lt hlt
          · by_cases hdr : i / 2 = r
            · -- sibling of the chosen child
              have hinr : i ≠ r := by omega
              rw [hdr, e1, e3 i hinr hicx]
              exact hmm i hic hdr hicx
            · by_cases hir : i = r
              · have hr2 : 2 ≤ r := by omega
                have hq1 : r / 2 ≠ r := by omega
                have hq2 : r / 2 ≠ minChild cmp h r := by omega
                have hcd : minChild cmp h r / 2 = r := by omega
                rw [hir, e1, e3 (r / 2) hq1 hq2]
                exact ha2 (minChild cmp h r) (by omega) hb3 hcd hr2
              · have hq2 : i / 2 ≠ minChild cmp h r := hine
                rw [e3 i hir hicx, e3 (i / 2) hdr hq2]
                exact ha1 i hi2 hic hdr
        · intro i hi2 hic hids hc2
          rw [swap_count] at hic
          have hcd : minChild cmp h r / 2 = r := by omega
          have hgc : 2 * minChild cmp h r ≤ i := by omega
          have hq1 : i ≠ r := by omega
          have hq2 : i ≠ minChild cmp h r := by omega
          rw [hcd, e1, e3 i hq1 hq2]
          have h5 := ha1 i hi2 hic (by omega)
          rw [hids] at h5
          exact h5
      case isFalse hge =>
        intro i hi2 hic
        have hstop : cmp (h.val r) (h.val (minChild cmp h r)) ≤ 0 :=
          (hflip (h.val (minChild cmp h r)) (h.val r)).mp (by omega)
        by_cases hdr : i / 2 = r
        · by_cases hicx : i = minChild cmp h r
          · subst hicx; rw [hdr]; exact hstop
          · rw [hdr]
            exact htrans _ _ _ hstop (hmm i hic hdr hicx)
        · exact ha1 i hi2 hic hdr
    case isFalse hg =>
      intro i hi2 hic
      by_cases hdr : i / 2 = r
      · omega
      · exact ha1 i hi2 hic hdr

theorem siftDown_count (cmp : α → α → Int) (h : MHeap α) (r : Nat) :
    (siftDown cmp h r).count = h.count :=
  siftDownGo_count ..

theorem siftDown_isHeap {cmp : α → α → Int} (hcc : CmpConsistent cmp) (h : MHeap α) (r : Nat)
    (h1 : 1 ≤ r) (had : AlmostDown cmp h r) : IsHeap cmp (siftDown cmp h r) :=
  siftDownGo_isHeap hcc h.count h r (by omega) h1 had

theorem upd_same (f : Nat → α) (i : Nat) (x : α) : upd f i x i = x := by
  unfold upd; simp

theorem upd_other (f : Nat → α) (i : Nat) (x : α) (k : Nat) (hk : k ≠ i) :
    upd f i x k = f k := by
  unfold upd; rw [if_neg hk]

theorem promoteHeap_count (h : MHeap α) (r : Nat) : (promoteHeap h r).count = h.count - 1 := rfl

theorem promoteHeap_val_same (h : MHeap α) (r : Nat) :
    (promoteHeap h r).val r = h.val h.count :=
  upd_same ..

theorem promoteHeap_val_other (h : MHeap α) (r k : Nat) (hk : k ≠ r) :
    (promoteHeap h r).val k = h.val k :=
  upd_other _ _ _ _ hk

theorem heap_erase_count (cmp : α → α → Int) (h : MHeap α) (r : Nat) :
    (heap_erase cmp h r).count = h.count := by
  unfold heap_erase
  split
  · exact heap_fixup_count ..
  · exact siftDown_count ..

theorem heap_insert_count (cmp : α → α → Int) (h : MHeap α) (x : α) :
    (heap_insert cmp h x).count = h.count + 1 := by
  unfold heap_insert
  rw [heap_fixup_count]

theorem heap_remove_promote (h : MHeap α) (r : Nat) (hne : r ≠ h.count) :
    heap_remove h r = (promoteHeap h r, some r) := by
  unfold heap_remove promoteHeap
  rw [if_neg hne]

theorem heap_delete_erase (cmp : α → α → Int) (h : MHeap α) (r : Nat)
    (h1 : 1 ≤ r) (h2 : r ≤ h.count) (hne : r ≠ h.count) :
    heap_delete cmp h r = heap_erase cmp (promoteHeap h r) r := by
  unfold heap_delete
  rw [if_pos ⟨h1, h2⟩, heap_remove_promote h r hne]

theorem heap_delete_last (cmp : α → α → Int) (h : MHeap α) (r : Nat)
    (h1 : 1 ≤ r) (h2 : r ≤ h.count) (heq : r = h.count) :
    heap_delete cmp h r = { count := h.count - 1, val := h.val } := by
  unfold heap_delete heap_remove
  rw [if_pos ⟨h1, h2⟩, if_pos heq]

theorem heap_delete_count (cmp : α → α → Int) (h : MHeap α) (r : Nat)
    (h1 : 1 ≤ r) (h2 : r ≤ h.count) :
    (heap_delete cmp h r).count = h.count - 1 := by
  by_cases heq : r = h.count
  · rw [heap_delete_last cmp h r h1 h2 heq]
  · rw [heap_delete_erase cmp h r h1 h2 heq, heap_erase_count, promoteHeap_count]

theorem heap_insert_isHeap {cmp : α → α → Int} (hcc : CmpConsistent cmp) (h : MHeap α)
    (x : α) (hh : IsHeap cmp h) : IsHeap cmp (heap_insert cmp h x) := by
  unfold heap_insert
  refine heap_fixup_isHeap hcc _ (h.count + 1) (by omega) (Nat.le_refl _) ?_
  constructor
  · intro i hi2 hic hine
    have hic' : i ≤ h.count + 1 := hic
    have e1 : upd h.val (h.count + 1) x i = h.val i := upd_other _ _ _ _ hine
    have e2 : upd h.val (h.count + 1) x (i / 2) = h.val (i / 2) :=
      upd_other _ _ _ _ (by omega)
    show cmp (upd h.val (h.count + 1) x (i / 2)) (upd h.val (h.count + 1) x i) ≤ 0
    rw [e1, e2]
    exact hh i hi2 (by omega)
  · intro i hi2 hic hid h2
    have hic' : i ≤ h.count + 1 := hic
    omega

theorem promote_isHeap {cmp : α → α → Int} (hcc : CmpConsistent cmp) (h : MHeap α) (r : Nat)
    (hh : IsHeap cmp h) (hr1 : 1 ≤ r) (hrc : r < h.count) :
    IsHeap cmp (heap_erase cmp (promoteHeap h r) r) := by
  obtain ⟨hflip, htrans⟩ := hcc
  unfold heap_erase
  split
  case isTrue hcond =>
    obtain ⟨hr2, hlt⟩ := hcond
    rw [promoteHeap_val_same, promoteHeap_val_other h r (r / 2) (by omega)] at hlt
    apply heap_fixup_isHeap ⟨hflip, htrans⟩ _ r hr1 (by rw [promoteHeap_count]; omega)
    constructor
    · intro i hi2 hic hine
      rw [promoteHeap_count] at hic
      rw [promoteHeap_val_other h r i hine]
      by_cases hid : i / 2 = r
      · rw [hid, promoteHeap_val_same]
        have c1 : cmp (h.val h.count) (h.val (r / 2)) ≤ 0 := le_of_lt hlt
        have c2 : cmp (h.val (r / 2)) (h.val r) ≤ 0 := hh r hr2 (by omega)
        have c3 : cmp (h.val r) (h.val i) ≤ 0 := by
          have hx := hh i hi2 (by omega)
          rw [hid] at hx
          exact hx
        exact htrans _ _ _ (htrans _ _ _ c1 c2) c3
      · rw [promoteHeap_val_other h r (i / 2) hid]
        exact hh i hi2 (by omega)
    · intro i hi2 hic hid h2
      rw [promoteHeap_count] at hic
      rw [promoteHeap_val_other h r i (by omega), promoteHeap_val_other h r (r / 2) (by omega)]
      have c2 : cmp (h.val (r / 2)) (h.val r) ≤ 0 := hh r h2 (by omega)
      have c3 : cmp (h.val r) (h.val i) ≤ 0 := by
        have hx := hh i hi2 (by omega)
        rw [hid] at hx
        exact hx
      exact htrans _ _ _ c2 c3
  case isFalse hcond =>
    apply siftDown_isHeap ⟨hflip, htrans⟩ _ r hr1
    constructor
    · intro i hi2 hic hid
      rw [promoteHeap_count] at hic
      by_cases hir : i = r
      · have h2 : 2 ≤ r := by omega
        rw [hir, promoteHeap_val_same, promoteHeap_val_other h r (r / 2) (by omega)]
        have hnot : ¬ cmp ((promoteHeap h r).val r) ((promoteHeap h r).val (r / 2)) < 0 :=
          fun hx => hcond ⟨h2, hx⟩
        rw [promoteHeap_val_same, promoteHeap_val_other h r (r / 2) (by omega)] at hnot
        exact (hflip (h.val h.count) (h.val (r / 2))).mp (by omega)
      · rw [promoteHeap_val_other h r i hir, promoteHeap_val_other h r (i / 2) hid]
        exact hh i hi2 (by omega)
    · intro i hi2 hic hid h2
      rw [promoteHeap_count] at hic
      rw [promoteHeap_val_other h r i (by omega), promoteHeap_val_other h r (r / 2) (by omega)]
      have c2 : cmp (h.val (r / 2)) (h.val r) ≤ 0 := hh r h2 (by omega)
      have c3 : cmp (h.val r) (h.val i) ≤ 0 := by
        have hx := hh i hi2 (by omega)
        rw [hid] at hx
        exact hx
      exact htrans _ _ _ c2 c3

theorem heap_delete_isHeap {cmp : α → α → Int} (hcc : CmpConsistent cmp) (h : MHeap α)
    (r : Nat) (hh : IsHeap cmp h) : IsHeap cmp (heap_delete cmp h r) := by
  by_cases hg : 1 ≤ r ∧ r ≤ h.count
  · by_cases heq : r = h.count
    · rw [heap_delete_last cmp h r hg.1 hg.2 heq]
      intro i hi2 hic
      have hic' : i ≤ h.count - 1 := hic
      exact hh i hi2 (by omega)
    · rw [heap_delete_erase cmp h r hg.1 hg.2 heq]
      exact promote_isHeap hcc h r hh hg.1 (by omega)
  · unfold heap_delete
    rw [if_neg hg]
    exact hh

theorem emptyHeap_isHeap (cmp : α → α → Int) (d : α) : IsHeap cmp (emptyHeap d) := by
  intro i hi2 hic
  have hic' : i ≤ 0 := hic
  omega

theorem applyOp_isHeap {cmp : α → α → Int} (hcc : CmpConsistent cmp) (h : MHeap α)
    (op : HeapOp α) (hh : IsHeap cmp h) : IsHeap cmp (applyOp cmp h op) := by
  cases op with
  | ins x => exact heap_insert_isHeap hcc h x hh
  | del r => exact heap_delete_isHeap hcc h r hh

theorem runOps_isHeap {cmp : α → α → Int} (hcc : CmpConsistent cmp) :
    ∀ (ops : List (HeapOp α)) (h : MHeap α), IsHeap cmp h → IsHeap cmp (runOps cmp h ops) := by
  intro ops
  induction ops with
  | nil => intro h hh; exact hh
  | cons op ops ih =>
    intro h hh
    exact ih (applyOp cmp h op) (applyOp_isHeap hcc h op hh)

theorem runInserts_count (cmp : α → α → Int) :
    ∀ (xs : List α) (h : MHeap α), (runInserts cmp h xs).count = h.count + xs.length := by
  intro xs
  induction xs with
  | nil => intro h; rfl
  | cons x xs ih =>
    intro h
    show (runInserts cmp (heap_insert cmp h x) xs).count = h.count + (xs.length + 1)
    rw [ih, heap_insert_count]
    omega

theorem runDeletes_count (cmp : α → α → Int) :
    ∀ (rs : List Nat) (h : MHeap α), validDeletes cmp h rs = true →
      (runDeletes cmp h rs).count + rs.length = h.count := by
  intro rs
  induction rs with
  | nil => intro h _; simp [runDeletes]
  | cons r rs ih =>
    intro h hv
    unfold validDeletes at hv
    rw [Bool.and_eq_true, Bool.and_eq_true, decide_eq_true_eq, decide_eq_true_eq] at hv
    obtain ⟨⟨h1, h2⟩, hv⟩ := hv
    have hrec := ih (heap_delete cmp h r) hv
    have hdc := heap_delete_count cmp h r h1 h2
    show (runDeletes cmp (heap_delete cmp h r) rs).count + (rs.length + 1) = h.count
    omega

theorem levelSeqGo_range' (h : MHeap α) :
    ∀ (fuel i : Nat), h.count ≤ fuel + i →
      levelSeqGo h fuel i = (List.range' (i + 1) (h.count - i)).map h.val := by
  intro fuel
  induction fuel with
  | zero =>
    intro i hle
    have hz : h.count - i = 0 := by omega
    rw [hz]
    rfl
  | succ fuel ih =>
    intro i hle
    by_cases hcase : i + 1 ≤ h.count
    · have hsub : h.count - i = (h.count - (i + 1)) + 1 := by omega
      rw [hsub, List.range'_succ]
      show (if i + 1 ≤ h.count then h.val (i + 1) :: levelSeqGo h fuel (i + 1) else []) = _
      rw [if_pos hcase, ih (i + 1) (by omega)]
      rfl
    · have hz : h.count - i = 0 := by omega
      rw [hz]
      show (if i + 1 ≤ h.count then h.val (i + 1) :: levelSeqGo h fuel (i + 1) else []) = _
      rw [if_neg hcase]
      rfl

theorem levelSeq_range' (h : MHeap α) (i : Nat) :
    levelSeq h i = (List.range' (i + 1) (h.count - i)).map h.val :=
  levelSeqGo_range' h (h.count - i) i (by omega)

theorem levelSeq_unfold (h : MHeap α) (i : Nat) :
    levelSeq h i = if i + 1 ≤ h.count then h.val (i + 1) :: levelSeq h (i + 1) else [] := by
  rw [levelSeq_range', levelSeq_range']
  by_cases hcase : i + 1 ≤ h.count
  · rw [if_pos hcase]
    have hsub : h.count - i = (h.count - (i + 1)) + 1 := by omega
    rw [hsub, List.range'_succ]
    rfl
  · rw [if_neg hcase]
    have hz : h.count - i = 0 := by omega
    rw [hz]
    rfl

theorem levelTraversal_range' (h : MHeap α) :
    levelTraversal h = (List.range' 1 h.count).map h.val := by
  unfold levelTraversal heap_level_first
  by_cases hz : h.count = 0
  · rw [if_pos hz, hz]
    rfl
  · rw [if_neg hz]
    show h.val 1 :: levelSeq h 1 = _
    have hsub : h.count = (h.count - 1) + 1 := by omega
    rw [levelSeq_range', hsub, List.range'_succ]
    rfl

theorem levelSeq_drop (h : MHeap α) : ∀ i : Nat, levelSeq h i = (levelTraversal h).drop i := by
  intro i
  induction i with
  | zero =>
    rw [List.drop_zero, levelTraversal_range', levelSeq_range']
    rfl
  | succ i ih =>
    have hdd : (levelTraversal h).drop (i + 1) = ((levelTraversal h).drop i).drop 1 :=
      (List.drop_drop 1 i _).symm
    rw [hdd, ← ih, levelSeq_unfold h i]
    by_cases hcase : i + 1 ≤ h.count
    · rw [if_pos hcase]
      rfl
    · rw [if_neg hcase, levelSeq_unfold h (i + 1), if_neg (by omega)]
      rfl

theorem navBitsGo_append :
    ∀ (fuel r : Nat) (acc : List Bool), navBitsGo fuel r acc = navBitsGo fuel r [] ++ acc := by
  intro fuel
  induction fuel with
  | zero => intro r acc; rfl
  | succ fuel ih =>
    intro r acc
    show (if 2 ≤ r then navBitsGo fuel (r / 2) (decide (r % 2 = 1) :: acc) else acc) =
      (if 2 ≤ r then navBitsGo fuel (r / 2) [decide (r % 2 = 1)] else []) ++ acc
    by_cases h2 : 2 ≤ r
    · rw [if_pos h2, if_pos h2, ih (r / 2) (decide (r % 2 = 1) :: acc),
        ih (r / 2) [decide (r % 2 = 1)], List.append_assoc]
      rfl
    · rw [if_neg h2, if_neg h2]
      rfl

theorem navBitsGo_fuel :
    ∀ (fuel fuel' r : Nat), r ≤ fuel → r ≤ fuel' → navBitsGo fuel r [] = navBitsGo fuel' r [] := by
  intro fuel
  induction fuel with
  | zero =>
    intro fuel' r h1 h2
    have hz : r = 0 := by omega
    subst hz
    cases fuel' with
    | zero => rfl
    | succ fuel' => show [] = if 2 ≤ 0 then _ else []; rw [if_neg (by omega)]
  | succ fuel ih =>
    intro fuel' r h1 h2
    cases fuel' with
    | zero =>
      have hz : r = 0 := by omega
      subst hz
      show (if 2 ≤ 0 then _ else []) = []
      rw [if_neg (by omega)]
    | succ fuel' =>
      show (if 2 ≤ r then navBitsGo fuel (r / 2) [decide (r % 2 = 1)] else []) =
        (if 2 ≤ r then navBitsGo fuel' (r / 2) [decide (r % 2 = 1)] else [])
      by_cases hr : 2 ≤ r
      · rw [if_pos hr, if_pos hr, navBitsGo_append fuel, navBitsGo_append fuel',
          ih fuel' (r / 2) (by omega) (by omega)]
      · rw [if_neg hr, if_neg hr]

theorem navBits_split (r : Nat) (h2 : 2 ≤ r) :
    navBits r = navBits (r / 2) ++ [decide (r % 2 = 1)] := by
  obtain ⟨fuel, rfl⟩ : ∃ f, r = f + 1 := ⟨r - 1, by omega⟩
  show navBitsGo (fuel + 1) (fuel + 1) [] = _
  have hstep : navBitsGo (fuel + 1) (fuel + 1) [] =
      navBitsGo fuel ((fuel + 1) / 2) [decide ((fuel + 1) % 2 = 1)] := by
    show (if 2 ≤ fuel + 1 then _ else _) = _
    rw [if_pos h2]
  rw [hstep, navBitsGo_append, navBitsGo_fuel fuel ((fuel + 1) / 2) ((fuel + 1) / 2)
    (by omega) (by omega)]
  rfl

theorem walk_append {α : Type} :
    ∀ (bs cs : List Bool) (t : HTree α),
      walk t (bs ++ cs) = (walk t bs).bind (fun u => walk u cs) := by
  intro bs
  induction bs with
  | nil => intro cs t; rfl
  | cons b bs ih =>
    intro cs t
    cases t with
    | nil => rfl
    | node v l r =>
      show walk (if b then r else l) (bs ++ cs) = _
      rw [ih cs (if b then r else l)]
      rfl

theorem buildTreeGo_fuel (h : MHeap α) :
    ∀ (fuel fuel' r : Nat), h.count + 1 ≤ fuel + r → h.count + 1 ≤ fuel' + r → 1 ≤ r →
      buildTreeGo h fuel r = buildTreeGo h fuel' r := by
  intro fuel
  induction fuel with
  | zero =>
    intro fuel' r h1 h2 hr
    cases fuel' with
    | zero => rfl
    | succ fuel' =>
      show HTree.nil = if 1 ≤ r ∧ r ≤ h.count then _ else HTree.nil
      rw [if_neg (by omega)]
  | succ fuel ih =>
    intro fuel' r h1 h2 hr
    cases fuel' with
    | zero =>
      show (if 1 ≤ r ∧ r ≤ h.count then _ else HTree.nil) = HTree.nil
      rw [if_neg (by omega)]
    | succ fuel' =>
      show (if 1 ≤ r ∧ r ≤ h.count then
          HTree.node (h.val r) (buildTreeGo h fuel (2 * r)) (buildTreeGo h fuel (2 * r + 1))
        else HTree.nil) =
        (if 1 ≤ r ∧ r ≤ h.count then
          HTree.node (h.val r) (buildTreeGo h fuel' (2 * r)) (buildTreeGo h fuel' (2 * r + 1))
        else HTree.nil)
      by_cases hg : 1 ≤ r ∧ r ≤ h.count
      · rw [if_pos hg, if_pos hg, ih fuel' (2 * r) (by omega) (by omega) (by omega),
          ih fuel' (2 * r + 1) (by omega) (by omega) (by omega)]
      · rw [if_neg hg, if_neg hg]

theorem buildTree_unfold (h : MHeap α) (r : Nat) (h1 : 1 ≤ r) :
    buildTree h r = if r ≤ h.count then
      HTree.node (h.val r) (buildTree h (2 * r)) (buildTree h (2 * r + 1))
    else .nil := by
  by_cases hrc : r ≤ h.count
  · rw [if_pos hrc]
    obtain ⟨m, hm⟩ : ∃ m, h.count + 1 - r = m + 1 := ⟨h.count - r, by omega⟩
    show buildTreeGo h (h.count + 1 - r) r = _
    rw [hm]
    show (if 1 ≤ r ∧ r ≤ h.count then
        HTree.node (h.val r) (buildTreeGo h m (2 * r)) (buildTreeGo h m (2 * r + 1))
      else HTree.nil) = _
    rw [if_pos ⟨h1, hrc⟩,
      buildTreeGo_fuel h m (h.count + 1 - 2 * r) (2 * r) (by omega) (by omega) (by omega),
      buildTreeGo_fuel h m (h.count + 1 - (2 * r + 1)) (2 * r + 1) (by omega) (by omega)
        (by omega)]
    rfl
  · rw [if_neg hrc]
    have hz : h.count + 1 - r = 0 := by omega
    show buildTreeGo h (h.count + 1 - r) r = HTree.nil
    rw [hz]
    rfl

theorem walk_navBits (h : MHeap α) :
    ∀ r : Nat, 1 ≤ r → r / 2 ≤ h.count →
      walk (buildTree h 1) (navBits r) = some (buildTree h r) := by
  intro r
  induction r using Nat.strong_induction_on with
  | _ r ih =>
    intro h1 hrc
    by_cases h2 : 2 ≤ r
    · rw [navBits_split r h2, walk_append,
        ih (r / 2) (by omega) (by omega) (by omega)]
      have hp2 : 1 ≤ r / 2 := by omega
      have hpc : r / 2 ≤ h.count := hrc
      rw [Option.some_bind, buildTree_unfold h (r / 2) hp2, if_pos hpc]
      by_cases hodd : r % 2 = 1
      · have hb : (decide (r % 2 = 1)) = true := by simp [hodd]
        rw [hb]
        show walk (if true then buildTree h (2 * (r / 2) + 1) else buildTree h (2 * (r / 2))) [] =
          some (buildTree h r)
        rw [if_pos rfl]
        show some (buildTree h (2 * (r / 2) + 1)) = some (buildTree h r)
        rw [show 2 * (r / 2) + 1 = r by omega]
      · have hb : (decide (r % 2 = 1)) = false := by simp [hodd]
        rw [hb]
        show walk (if false then buildTree h (2 * (r / 2) + 1) else buildTree h (2 * (r / 2))) [] =
          some (buildTree h r)
        rw [if_neg (by simp)]
        show some (buildTree h (2 * (r / 2))) = some (buildTree h r)
        rw [show 2 * (r / 2) = r by omega]
    · have hr1 : r = 1 := by omega
      subst hr1
      rfl

end RankModel

namespace PtrModel

theorem heap_link_effect (s : HState) (parent : Ptr) (slot : LinkSlot) (a : Nat)
    (hok : match slot with
      | .rootSlot => True
      | .leftOf b => b ≠ a ∧ (s.mem b).isSome = true
      | .rightOf b => b ≠ a ∧ (s.mem b).isSome = true) :
    readSlot (heap_link s parent slot a) slot = some (Ptr.addr a) ∧
    (heap_link s parent slot a).mem a =
      some { parent := parent, left := Ptr.null, right := Ptr.null } ∧
    (heap_link s parent slot a).root.count = s.root.count + 1 := by
  cases slot with
  | rootSlot =>
    refine ⟨rfl, ?_, rfl⟩
    simp [heap_link, writeSlot]
  | leftOf b =>
    obtain ⟨hba, hsome⟩ := hok
    obtain ⟨nd, hnd⟩ := Option.isSome_iff_exists.mp hsome
    refine ⟨?_, ?_, rfl⟩
    · simp [heap_link, writeSlot, readSlot, hba, hnd]
    · simp [heap_link, writeSlot]
  | rightOf b =>
    obtain ⟨hba, hsome⟩ := hok
    obtain ⟨nd, hnd⟩ := Option.isSome_iff_exists.mp hsome
    refine ⟨?_, ?_, rfl⟩
    · simp [heap_link, writeSlot, readSlot, hba, hnd]
    · simp [heap_link, writeSlot]

theorem heap_delete_poisons (remove : HState → Nat → HState × Option Nat)
    (erase : HState → Nat → HState) (s : HState) (a : Nat) :
    (heap_delete remove erase s a).mem a =
      some { parent := POISON_HPNODE3, left := POISON_HPNODE1, right := POISON_HPNODE2 } := by
  show (if a = a then some _ else _) = _
  rw [if_pos rfl]

end PtrModel

namespace RankModel

/-- Claim C1: when `heap_delete` removes a node that is not the
last-in-level-order node, `heap_remove` promotes the last node into the
removed slot and returns it for rebalancing; the deletion then sifts the
promoted node up (`heap_fixup`) exactly when it is smaller than its new
parent and otherwise sifts it down; when the upward violation holds, no
child of the slot is smaller than the promoted node (so at most one of the
two directions actually moves it); and after `heap_delete` returns, the
order invariant holds everywhere, in particular for the promoted node
against its parent and its children. -/
theorem claim_C1_delete_rebalance (cmp : α → α → Int) (h : MHeap α) (r : Nat)
    (hcc : CmpConsistent cmp) (hh : IsHeap cmp h) (hr1 : 1 ≤ r) (hrc : r ≤ h.count)
    (hne : r ≠ h.count) :
    heap_remove h r = (promoteHeap h r, some r) ∧
    ((2 ≤ r ∧ cmp ((promoteHeap h r).val r) ((promoteHeap h r).val (r / 2)) < 0) →
      heap_delete cmp h r = heap_fixup cmp (promoteHeap h r) r) ∧
    (¬ (2 ≤ r ∧ cmp ((promoteHeap h r).val r) ((promoteHeap h r).val (r / 2)) < 0) →
      heap_delete cmp h r = siftDown cmp (promoteHeap h r) r) ∧
    ((2 ≤ r ∧ cmp ((promoteHeap h r).val r) ((promoteHeap h r).val (r / 2)) < 0) →
      ∀ c, c ≤ (promoteHeap h r).count → c / 2 = r →
        ¬ cmp ((promoteHeap h r).val c) ((promoteHeap h r).val r) < 0) ∧
    IsHeap cmp (heap_delete cmp h r) := by
  have hrem := heap_remove_promote h r hne
  have hd := heap_delete_erase cmp h r hr1 hrc hne
  refine ⟨hrem, ?_, ?_, ?_, heap_delete_isHeap hcc h r hh⟩
  · intro hcond
    rw [hd]
    unfold heap_erase
    rw [if_pos hcond]
  · intro hcond
    rw [hd]
    unfold heap_erase
    rw [if_neg hcond]
  · intro hcond c hcle hc2
    obtain ⟨hflip, htrans⟩ := hcc
    obtain ⟨hr2, hlt⟩ := hcond
    rw [promoteHeap_count] at hcle
    have hcr : c ≠ r := by omega
    rw [promoteHeap_val_same, promoteHeap_val_other h r (r / 2) (by omega)] at hlt
    rw [promoteHeap_val_same, promoteHeap_val_other h r c hcr]
    have c1 : cmp (h.val h.count) (h.val (r / 2)) ≤ 0 := le_of_lt hlt
    have c2 : cmp (h.val (r / 2)) (h.val r) ≤ 0 := hh r hr2 (by omega)
    have c3 : cmp (h.val r) (h.val c) ≤ 0 := by
      have hx := hh c (by omega) (by omega)
      rw [hc2] at hx
      exact hx
    have hchain : cmp (h.val h.count) (h.val c) ≤ 0 :=
      htrans _ _ _ (htrans _ _ _ c1 c2) c3
    have hpos := (hflip (h.val c) (h.val h.count)).mpr hchain
    omega

theorem claim_C1_witness :
    heap_remove wHeapF 1 = (promoteHeap wHeapF 1, some 1) ∧
    IsHeap cmpF (heap_delete cmpF wHeapF 1) := by
  have hh : IsHeap cmpF wHeapF := by
    intro i hi2 hic
    have hic' : i ≤ 3 := hic
    interval_cases i <;> decide
  have hmain := claim_C1_delete_rebalance cmpF wHeapF 1 ⟨by decide, by decide⟩ hh (by decide)
    (by decide) (by decide)
  exact ⟨hmain.1, hmain.2.2.2.2⟩

/-- Claim C2: starting from an empty root, after every sequence of
`heap_insert` and `heap_delete` operations (hence after each individual
operation, since every prefix is itself such a sequence) every linked node
with a parent satisfies `cmp parent node ≤ 0`, provided the caller-supplied
comparator meets the spec's consistency contract. -/
theorem claim_C2_order_invariant (cmp : α → α → Int) (d : α) (hcc : CmpConsistent cmp)
    (ops : List (HeapOp α)) : IsHeap cmp (runOps cmp (emptyHeap d) ops) :=
  runOps_isHeap hcc ops (emptyHeap d) (emptyHeap_isHeap cmp d)

theorem claim_C2_witness :
    IsHeap cmpF (runOps cmpF (emptyHeap 0)
      [HeapOp.ins 2, HeapOp.ins 1, HeapOp.ins 0, HeapOp.del 2, HeapOp.del 1]) :=
  claim_C2_order_invariant cmpF 0 ⟨by decide, by decide⟩
    [HeapOp.ins 2, HeapOp.ins 1, HeapOp.ins 0, HeapOp.del 2, HeapOp.del 1]

/-- Claim C3: inserting the nodes of `xs` into an initially empty root and
then deleting one live node at a time, in any order (any rank sequence that
addresses a live node at each step), leaves the root empty: the count is 0
and the root node pointer is absent. -/
theorem claim_C3_round_trip (cmp : α → α → Int) (d : α) (xs : List α) (rs : List Nat)
    (hlen : rs.length = xs.length)
    (hvalid : validDeletes cmp (runInserts cmp (emptyHeap d) xs) rs = true) :
    (runDeletes cmp (runInserts cmp (emptyHeap d) xs) rs).count = 0 ∧
    rootNode (runDeletes cmp (runInserts cmp (emptyHeap d) xs) rs) = none := by
  have hic := runInserts_count cmp xs (emptyHeap d)
  have hdc := runDeletes_count cmp rs (runInserts cmp (emptyHeap d) xs) hvalid
  have hec : (emptyHeap d : MHeap α).count = 0 := rfl
  have hz : (runDeletes cmp (runInserts cmp (emptyHeap d) xs) rs).count = 0 := by omega
  refine ⟨hz, ?_⟩
  unfold rootNode
  rw [if_pos hz]

theorem claim_C3_witness :
    (runDeletes cmpF (runInserts cmpF (emptyHeap 0) [2, 0, 1]) [2, 1, 1]).count = 0 ∧
    rootNode (runDeletes cmpF (runInserts cmpF (emptyHeap 0) [2, 0, 1]) [2, 1, 1]) = none :=
  claim_C3_round_trip cmpF 0 [2, 0, 1] [2, 1, 1] (by decide) (by decide)

/-- Claim C4: `heap_parent` resolves the slot of a rank by the binary
representation of the rank: dropping the highest set bit and following the
remaining bits most-significant-first (0 = left child, 1 = right child) down
the pointer tree reaches exactly the subtree of that rank; all bits but the
last reach the direct parent, and the last bit names the specific child slot
(`r = 2 * (r / 2) + bit`); for insertion the rank used is `count + 1`, whose
slot is the vacant level-order position `count + 1`, and the node inserted
there by `heap_insert` occupies exactly that position as a leaf. -/
theorem claim_C4_parent_navigation (h : MHeap α) (x : α) (r : Nat)
    (h1 : 1 ≤ r) (hrc : r ≤ h.count) (hcnt : 1 ≤ h.count) :
    walk (buildTree h 1) (navBits r) = some (buildTree h r) ∧
    (2 ≤ r → heap_parent h r = (some (buildTree h (r / 2)), some (decide (r % 2 = 1)))) ∧
    (2 ≤ r → r = 2 * (r / 2) + (if decide (r % 2 = 1) then 1 else 0)) ∧
    walk (buildTree h 1) (navBits (h.count + 1)) = some (buildTree h (h.count + 1)) ∧
    buildTree h (h.count + 1) = HTree.nil ∧
    buildTree { count := h.count + 1, val := upd h.val (h.count + 1) x } (h.count + 1) =
      HTree.node x HTree.nil HTree.nil := by
  refine ⟨walk_navBits h r h1 (by omega), ?_, ?_, walk_navBits h (h.count + 1) (by omega)
    (by omega), ?_, ?_⟩
  · intro h2
    unfold heap_parent
    rw [navBits_split r h2]
    have hd : (navBits (r / 2) ++ [decide (r % 2 = 1)]).dropLast = navBits (r / 2) := by simp
    have hg : (navBits (r / 2) ++ [decide (r % 2 = 1)]).getLast? = some (decide (r % 2 = 1)) := by
      simp
    rw [hd, hg, walk_navBits h (r / 2) (by omega) (by omega)]
  · intro h2
    by_cases hodd : r % 2 = 1
    · simp only [hodd]
      norm_num
      omega
    · simp only [hodd]
      norm_num
      omega
  · rw [buildTree_unfold h (h.count + 1) (by omega), if_neg (by omega)]
  · rw [buildTree_unfold _ (h.count + 1) (by omega),
      if_pos (Nat.le_refl (h.count + 1)),
      buildTree_unfold _ (2 * (h.count + 1)) (by omega),
      if_neg (show ¬ 2 * (h.count + 1) ≤ h.count + 1 by omega),
      buildTree_unfold _ (2 * (h.count + 1) + 1) (by omega),
      if_neg (show ¬ 2 * (h.count + 1) + 1 ≤ h.count + 1 by omega)]
    have hv : ({ count := h.count + 1, val := upd h.val (h.count + 1) x } : MHeap α).val
        (h.count + 1) = x := upd_same ..
    rw [hv]

theorem claim_C4_witness :
    walk (buildTree wHeap 1) (navBits 2) = some (buildTree wHeap 2) ∧
    (2 ≤ 2 → heap_parent wHeap 2 = (some (buildTree wHeap 1), some (decide (2 % 2 = 1)))) ∧
    (2 ≤ 2 → 2 = 2 * (2 / 2) + (if decide (2 % 2 = 1) then 1 else 0)) ∧
    walk (buildTree wHeap 1) (navBits (wHeap.count + 1)) =
      some (buildTree wHeap (wHeap.count + 1)) ∧
    buildTree wHeap (wHeap.count + 1) = HTree.nil ∧
    buildTree { count := wHeap.count + 1, val := upd wHeap.val (wHeap.count + 1) 9 }
      (wHeap.count + 1) = HTree.node 9 HTree.nil HTree.nil :=
  claim_C4_parent_navigation wHeap 9 2 (by decide) (by decide) (by decide)

/-- Claim C5: `heap_level_first` returns the rank-1 root and cursor 1, or
none on an empty root; `heap_level_next` increments the cursor and resolves
the new rank, returning none exactly when the cursor exceeds the count; and
a full traversal that starts with `heap_level_first` and repeats
`heap_level_next` until none visits exactly `count` nodes — the node of rank
`k` at step `k`, each linked node exactly once, in increasing rank order. -/
theorem claim_C5_traversal (h : MHeap α) :
    (h.count = 0 → heap_level_first h = (none, 1)) ∧
    (1 ≤ h.count → heap_level_first h = (some (h.val 1), 1)) ∧
    (∀ i, (heap_level_next h i).2 = i + 1) ∧
    (∀ i, (heap_level_next h i).1 = none ↔ h.count < i + 1) ∧
    (∀ i x j, heap_level_next h i = (some x, j) → levelSeq h i = x :: levelSeq h j) ∧
    (∀ i j, heap_level_next h i = (none, j) → levelSeq h i = []) ∧
    levelTraversal h = (List.range' 1 h.count).map h.val ∧
    (levelTraversal h).length = h.count := by
  refine ⟨?_, ?_, ?_, ?_, ?_, ?_, levelTraversal_range' h, ?_⟩
  · intro hz
    unfold heap_level_first
    rw [if_pos hz]
  · intro hpos
    unfold heap_level_first
    rw [if_neg (by omega)]
  · intro i
    rfl
  · intro i
    unfold heap_level_next
    by_cases hcase : i + 1 ≤ h.count
    · rw [if_pos hcase]
      constructor
      · intro hx
        exact absurd hx (by simp)
      · intro hx
        omega
    · rw [if_neg hcase]
      constructor
      · intro _
        omega
      · intro _
        rfl
  · intro i x j heq
    unfold heap_level_next at heq
    by_cases hcase : i + 1 ≤ h.count
    · rw [if_pos hcase, Prod.mk.injEq] at heq
      obtain ⟨hx, hj⟩ := heq
      rw [Option.some.injEq] at hx
      rw [levelSeq_unfold h i, if_pos hcase, hx, hj]
    · rw [if_neg hcase, Prod.mk.injEq] at heq
      exact absurd heq.1 (by simp)
  · intro i j heq
    unfold heap_level_next at heq
    by_cases hcase : i + 1 ≤ h.count
    · rw [if_pos hcase, Prod.mk.injEq] at heq
      exact absurd heq.1 (by simp)
    · rw [levelSeq_unfold h i, if_neg hcase]
  · rw [levelTraversal_range', List.length_map, List.length_range']

theorem claim_C5_witness :
    heap_level_first wHeap = (some (wHeap.val 1), 1) ∧
    ((heap_level_next wHeap 3).1 = none ↔ wHeap.count < 3 + 1) ∧
    levelTraversal wHeap = (List.range' 1 wHeap.count).map wHeap.val ∧
    (levelTraversal wHeap).length = wHeap.count := by
  have hmain := claim_C5_traversal wHeap
  exact ⟨hmain.2.1 (by decide), hmain.2.2.2.1 3, hmain.2.2.2.2.2.2.1,
    hmain.2.2.2.2.2.2.2⟩

/-- Claim C6: resuming the traversal with `heap_level_next` from a saved
cursor `i` on the unmutated tree yields exactly the remaining sequence of
the uninterrupted traversal: the suffix of the full level-order traversal
after its first `i` visits. -/
theorem claim_C6_restart (h : MHeap α) (i : Nat) :
    levelSeq h i = (levelTraversal h).drop i :=
  levelSeq_drop h i

end RankModel

namespace PtrModel

/-- Claim C7: with the debug hooks enabled, a rejected link-check makes
`heap_link` return with the state (tree links, node fields, count) entirely
unchanged, and a rejected delete-check likewise makes `heap_delete` a silent
no-op. -/
theorem claim_C7_debug_noop (chkl : Ptr → LinkSlot → Nat → Bool) (chkd : Nat → Bool)
    (remove : HState → Nat → HState × Option Nat) (erase : HState → Nat → HState)
    (s : HState) (parent : Ptr) (slot : LinkSlot) (a : Nat)
    (hl : chkl parent slot a = false) (hd : chkd a = false) :
    heap_link_debug chkl s parent slot a = s ∧
    heap_delete_debug chkd remove erase s a = s := by
  constructor
  · unfold heap_link_debug
    rw [hl]
    rfl
  · unfold heap_delete_debug
    rw [hd]
    rfl

theorem claim_C7_witness :
    heap_link_debug (fun _ _ _ => false) wState Ptr.null LinkSlot.rootSlot 7 = wState ∧
    heap_delete_debug (fun _ => false) (fun s _ => (s, none)) (fun s _ => s) wState 5 =
      wState :=
  claim_C7_debug_noop (fun _ _ _ => false) (fun _ => false) (fun s _ => (s, none))
    (fun s _ => s) wState Ptr.null LinkSlot.rootSlot 7 rfl rfl

/-- Claim C8: after `heap_delete` returns (whatever the `heap_remove` and
`heap_erase` callees did), the deleted node's three link fields hold the
three poison constants — left `POISON_HPNODE1`, right `POISON_HPNODE2`,
parent `POISON_HPNODE3` — and those three sentinels are pairwise
distinct. -/
theorem claim_C8_poison_distinct (remove : HState → Nat → HState × Option Nat)
    (erase : HState → Nat → HState) (s : HState) (a : Nat) :
    (heap_delete remove erase s a).mem a =
      some { parent := POISON_HPNODE3, left := POISON_HPNODE1, right := POISON_HPNODE2 } ∧
    POISON_HPNODE1 ≠ POISON_HPNODE2 ∧ POISON_HPNODE1 ≠ POISON_HPNODE3 ∧
    POISON_HPNODE2 ≠ POISON_HPNODE3 :=
  ⟨heap_delete_poisons remove erase s a, by decide, by decide, by decide⟩

/-- Claim C9: `heap_link` links the new node as a leaf — left and right
null, parent the navigator-determined parent pointer, the parent's chosen
child slot pointing at the node — and increments `root.count` by exactly
one, all in the state passed to `heap_fixup` by `heap_insert_node` (so the
link update and the count update happen together, before fixup runs). -/
theorem claim_C9_link_leaf (fixup : HState → Nat → HState) (s : HState) (parent : Ptr)
    (slot : LinkSlot) (a : Nat)
    (hok : match slot with
      | .rootSlot => True
      | .leftOf b => b ≠ a ∧ (s.mem b).isSome = true
      | .rightOf b => b ≠ a ∧ (s.mem b).isSome = true) :
    readSlot (heap_link s parent slot a) slot = some (Ptr.addr a) ∧
    (heap_link s parent slot a).mem a =
      some { parent := parent, left := Ptr.null, right := Ptr.null } ∧
    (heap_link s parent slot a).root.count = s.root.count + 1 ∧
    heap_insert_node fixup s parent slot a = fixup (heap_link s parent slot a) a := by
  obtain ⟨h1, h2, h3⟩ := heap_link_effect s parent slot a hok
  exact ⟨h1, h2, h3, rfl⟩

theorem claim_C9_witness :
    readSlot (heap_link wState (Ptr.addr 5) (LinkSlot.leftOf 5) 7) (LinkSlot.leftOf 5) =
      some (Ptr.addr 7) ∧
    (heap_link wState (Ptr.addr 5) (LinkSlot.leftOf 5) 7).mem 7 =
      some { parent := Ptr.addr 5, left := Ptr.null, right := Ptr.null } ∧
    (heap_link wState (Ptr.addr 5) (LinkSlot.leftOf 5) 7).root.count =
      wState.root.count + 1 ∧
    heap_insert_node (fun st _ => st) wState (Ptr.addr 5) (LinkSlot.leftOf 5) 7 =
      (fun st (_ : Nat) => st) (heap_link wState (Ptr.addr 5) (LinkSlot.leftOf 5) 7) 7 :=
  claim_C9_link_leaf (fun st _ => st) wState (Ptr.addr 5) (LinkSlot.leftOf 5) 7
    ⟨by decide, by decide⟩

/-- Claim C10: after `heap_delete`, the deleted node's parent field is the
poison constant `POISON_HPNODE3`, so `HEAP_EMPTY_NODE` is false for it
whenever the node's own address differs from that constant; and
`HEAP_EMPTY_NODE` does hold for a live node prepared with
`HEAP_CLEAR_NODE`. -/
theorem claim_C10_empty_node (remove : HState → Nat → HState × Option Nat)
    (erase : HState → Nat → HState) (s : HState) (a : Nat)
    (ha : a ≠ POISON_OFFSET + 0x30) :
    ((heap_delete remove erase s a).mem a).map HNode.parent = some POISON_HPNODE3 ∧
    HEAP_EMPTY_NODE (heap_delete remove erase s a) a = false ∧
    (∀ nd, s.mem a = some nd → HEAP_EMPTY_NODE (HEAP_CLEAR_NODE s a) a = true) := by
  have hmem := heap_delete_poisons remove erase s a
  refine ⟨by rw [hmem]; rfl, ?_, ?_⟩
  · unfold HEAP_EMPTY_NODE
    rw [hmem]
    simp only [decide_eq_false_iff_not]
    intro hx
    unfold POISON_HPNODE3 at hx
    rw [Ptr.addr.injEq] at hx
    exact ha hx.symm
  · intro nd hnd
    unfold HEAP_EMPTY_NODE HEAP_CLEAR_NODE
    show (match (if a = a then (s.mem a).map _ else s.mem a) with
      | some nd => decide (nd.parent = Ptr.addr a)
      | none => false) = true
    rw [if_pos rfl, hnd]
    simp

theorem claim_C10_witness :
    ((heap_delete (fun s _ => (s, none)) (fun s _ => s) wState 5).mem 5).map HNode.parent =
      some POISON_HPNODE3 ∧
    HEAP_EMPTY_NODE (heap_delete (fun s _ => (s, none)) (fun s _ => s) wState 5) 5 = false ∧
    (∀ nd, wState.mem 5 = some nd → HEAP_EMPTY_NODE (HEAP_CLEAR_NODE wState 5) 5 = true) :=
  claim_C10_empty_node (fun s _ => (s, none)) (fun s _ => s) wState 5 (by decide)

end PtrModel
